import Mathlib

/-!
Verification development for the `mrp_production_serial_matrix` wizard and the
`mrp_tag` model.  The wizard logic of
`wizards/mrp_production_serial_matrix.py` is embedded shallowly: recordsets
become lists, floats become rationals, dictionaries become insertion-ordered
association lists, and the raising of a `UserError` becomes an `Except.error`
result.  Host-framework services that the wizard merely calls are passed in as
explicit parameters or modelled from the specification, with a note at each
such definition.

Rational arithmetic is expressed through the executable wrappers `qAdd`,
`qSub` and `qDiv` below, proved equal to the field operations of `ℚ` in
`qAdd_eq_add`, `qSub_eq_sub` and `qDiv_eq_div`, so that every definition can be
evaluated on concrete inputs by the kernel.
-/

namespace SerialMatrix

/-- Addition on `ℚ`, computed on numerators and denominators.  Equal to `+` by
`qAdd_eq_add`. -/
def qAdd (a b : ℚ) : ℚ := Rat.divInt (a.num * b.den + b.num * a.den) (a.den * b.den)

/-- Subtraction on `ℚ`, computed on numerators and denominators.  Equal to `-`
by `qSub_eq_sub`. -/
def qSub (a b : ℚ) : ℚ := Rat.divInt (a.num * b.den - b.num * a.den) (a.den * b.den)

/-- Division on `ℚ`, computed on numerators and denominators.  Equal to `/` by
`qDiv_eq_div`. -/
def qDiv (a b : ℚ) : ℚ := Rat.divInt (a.num * b.den) (a.den * b.num)

/-- Rendering of a quantity inside a warning message.  The Python code
interpolates the float with `%s`; the exact numeric text is irrelevant to
every claim, only the surrounding words are. -/
def ratStr (q : ℚ) : String :=
  if q.den = 1 then toString q.num else toString q.num ++ "/" ++ toString q.den

/-- Tracking mode of a product, mirroring the `tracking` selection field. -/
inductive Tracking
  | none
  | lot
  | serial
deriving DecidableEq

/-- A `stock.lot` record: a lot/serial number. -/
structure Lot where
  id : Nat
  name : String
deriving DecidableEq

/-- A product with its tracking policy, as read by the wizard. -/
structure Product where
  id : Nat
  tracking : Tracking
  displayName : String
deriving DecidableEq

/-- The data of `move.bom_line_id` the wizard reads: the component quantity of
the bill-of-materials line and the finished quantity of its bill. -/
structure BomLine where
  productQty : ℚ
  bomProductQty : ℚ
deriving DecidableEq

/-- A raw-material move of the production order, with the fields read by
`_get_matrix_lines`. -/
structure Move where
  product : Product
  productQty : ℚ
  bomLine : Option BomLine
deriving DecidableEq

/-- The data of an `mrp.production` order the wizard reads. -/
structure Production where
  id : Nat
  productQty : ℚ
  moveRaws : List Move
deriving DecidableEq

/-- A matrix line (`mrp.production.serial.matrix.line`), with the fields the
wizard writes in `_prepare_matrix_line` and reads in
`_compute_lot_selection_warning`.  The component lot cell starts empty and is
filled by the user. -/
structure Line where
  component : Product
  componentColumnName : String
  lotQty : ℚ
  finishedLot : Option Lot
  finishedLotName : String
  componentLot : Option Lot
deriving DecidableEq

/-- The wizard state (`mrp.production.serial.matrix`). -/
structure Wizard where
  production : Production
  finishedLots : List Lot
  includeLots : Bool
  lines : List Line
deriving DecidableEq

/-! ## Matrix line generation (`_get_matrix_lines`, `_prepare_matrix_line`) -/

/-- Per-finished-unit quantity of a move, as computed at the top of
`_get_matrix_lines`: from the bill-of-materials ratio when the move has a BoM
line, otherwise from the move quantity divided by the order quantity. -/
def qtyPerFinishedUnit (production : Production) (move : Move) : ℚ :=
  match move.bomLine with
  | some boml => qDiv boml.productQty boml.bomProductQty
  | Option.none => qDiv move.productQty production.productQty

/-- The tracked-component tuples `(component, lot_no, lot_qty)` contributed by
one raw move.  A zero-quantity move is skipped (`float_is_zero`, modelled as
exact zero on rationals); a serial-tracked product contributes
`int(qty_per_finished_unit)` unit tuples numbered from 1 (`int` truncation on a
nonnegative rational is the floor, and a negative quantity yields no tuples
either way, matching `Int.toNat` of the floor); a lot-tracked product
contributes one tuple when lot inclusion is enabled. -/
def trackedOfMove (includeLots : Bool) (production : Production) (move : Move) :
    List (Product × Nat × ℚ) :=
  if move.productQty = 0 then []
  else
    match move.product.tracking with
    | Tracking.serial =>
      (List.range (Int.toNat ⌊qtyPerFinishedUnit production move⌋)).map
        (fun i => (move.product, i + 1, (1 : ℚ)))
    | Tracking.lot =>
      if includeLots then [(move.product, 0, qtyPerFinishedUnit production move)] else []
    | Tracking.none => []

/-- The full `tracked_components` list, one move after the other. -/
def trackedComponents (includeLots : Bool) (production : Production) :
    List (Product × Nat × ℚ) :=
  production.moveRaws.foldr (fun m acc => trackedOfMove includeLots production m ++ acc) []

/-- The label used for a placeholder finished unit: the wizard writes
`"(New Lot %s)" % number`. -/
def newLotLabel (number : Nat) : String :=
  "(New Lot " ++ toString number ++ ")"

/-- Embedding of `_prepare_matrix_line`: build one matrix line from a tracked
component tuple, either bound to a chosen finished lot or labelled as a
placeholder with the given number. -/
def prepare_matrix_line (ct : Product × Nat × ℚ) (finishedLot : Option Lot)
    (number : Nat) : Line :=
  { component := ct.1
    componentColumnName :=
      ct.1.displayName ++ (if 0 < ct.2.1 then " (" ++ toString ct.2.1 ++ ")" else "")
    lotQty := ct.2.2
    finishedLot := finishedLot
    finishedLotName :=
      match finishedLot with
      | some l => l.name
      | Option.none => newLotLabel number
    componentLot := Option.none }

/-- The block of lines generated for one finished unit: one line per tracked
component tuple. -/
def groupLines (tcs : List (Product × Nat × ℚ)) (finishedLot : Option Lot)
    (number : Nat) : List Line :=
  tcs.map (fun ct => prepare_matrix_line ct finishedLot number)

/-- The outer loop of `_get_matrix_lines`: iterate once per finished unit,
consuming the chosen finished lots first and then numbering placeholders. -/
def matrixGo (tcs : List (Product × Nat × ℚ)) :
    List Lot → Nat → Nat → List Line
  | _, _, 0 => []
  | l :: rest, newNo, n + 1 => groupLines tcs (some l) newNo ++ matrixGo tcs rest newNo n
  | [], newNo, n + 1 => groupLines tcs Option.none (newNo + 1) ++ matrixGo tcs [] (newNo + 1) n

/-- Embedding of `_get_matrix_lines`: `range(int(production.product_qty))`
iterations over the tracked components. -/
def get_matrix_lines (includeLots : Bool) (production : Production)
    (finishedLots : List Lot) : List Line :=
  matrixGo (trackedComponents includeLots production) finishedLots 0
    (Int.toNat ⌊production.productQty⌋)

/-! ## Warning computation (`_compute_lot_selection_warning`)

The availability of a lot is obtained in the Python code through
`line._get_available_and_reserved_quantities()`.  Modelled from the spec: that
method lives on the matrix line model, which is not part of the sources here;
the spec describes its result as the free and the reserved quantity of the
assigned lot, so it is passed in as a function `avail : Lot → ℚ × ℚ`. -/

/-- Number of occurrences of a lot in a list of lots. -/
def occCount (l : Lot) : List Lot → Nat
  | [] => 0
  | k :: ks => (if k = l then 1 else 0) + occCount l ks

/-- The entries of an association list whose key is the given lot. -/
def entriesFor {β : Type} (l : Lot) : List (Lot × β) → List (Lot × β)
  | [] => []
  | p :: r => if p.1 = l then p :: entriesFor l r else entriesFor l r

/-- One `setdefault`/increment step of the `serial_counter` dictionary:
increment the entry of the key in place, appending a fresh entry at the end
when the key is new (Python dictionaries preserve insertion order). -/
def bumpCount : List (Lot × Nat) → Lot → List (Lot × Nat)
  | [], k => [(k, 1)]
  | (k0, n) :: rest, k =>
    if k0 = k then (k0, n + 1) :: rest else (k0, n) :: bumpCount rest k

/-- The `serial_counter` dictionary built from a list of assigned serials. -/
def countFold (m : List (Lot × Nat)) : List Lot → List (Lot × Nat)
  | [] => m
  | k :: ks => countFold (bumpCount m k) ks

/-- The serial-tracked lines of the wizard, in order. -/
def serialLines (lines : List Line) : List Line :=
  lines.filter (fun l => decide (l.component.tracking = Tracking.serial))

/-- The serials assigned on serial-tracked lines, in order; empty cells are
skipped (`continue`). -/
def serialLots (lines : List Line) : List Lot :=
  (serialLines lines).filterMap (fun l => l.componentLot)

/-- The `serial_counter` dictionary of `_compute_lot_selection_warning`. -/
def serialCounter (lines : List Line) : List (Lot × Nat) :=
  countFold [] (serialLots lines)

/-- The message `"Serial number %s selected several times"`. -/
def serialMsg (l : Lot) : String :=
  "Serial number " ++ l.name ++ " selected several times"

/-- The duplicate-serial warnings: one `(lot, message)` pair per counter entry
whose count exceeds one, in counter order. -/
def serialWarnings (lines : List Line) : List (Lot × String) :=
  ((serialCounter lines).filter (fun p => decide (1 < p.2))).map
    (fun p => (p.1, serialMsg p.1))

/-- The lot-tracked lines of the wizard, in order. -/
def lotLines (lines : List Line) : List Line :=
  lines.filter (fun l => decide (l.component.tracking = Tracking.lot))

/-- The `(lot, quantity)` pairs of the lot-tracked lines that have a lot
assigned, in order; these are the only two line fields the lot loop reads. -/
def assignedLotRows (lines : List Line) : List (Lot × ℚ) :=
  (lotLines lines).filterMap (fun l => l.componentLot.map (fun c => (c, l.lotQty)))

/-- Lookup in the `lot_consumption` dictionary. -/
def getQ (m : List (Lot × ℚ)) (k : Lot) : Option ℚ :=
  match m with
  | [] => Option.none
  | (k0, v) :: r => if k0 = k then some v else getQ r k

/-- `lot_consumption.setdefault(lot, 0)`: append a zero entry when the key is
new. -/
def setdefaultQ (m : List (Lot × ℚ)) (k : Lot) : List (Lot × ℚ) :=
  match getQ m k with
  | some _ => m
  | Option.none => m ++ [(k, 0)]

/-- `lot_consumption[lot] += qty`: add to the entry of the key in place. -/
def addConsumption : List (Lot × ℚ) → Lot → ℚ → List (Lot × ℚ)
  | [], k, q => [(k, q)]
  | (k0, v) :: r, k, q =>
    if k0 = k then (k0, qAdd v q) :: r else (k0, v) :: addConsumption r k q

/-- The message `"Lot %s not available at the needed qty (%s/%s)"`. -/
def lotMsg (l : Lot) (availableQuantity needed : ℚ) : String :=
  "Lot " ++ l.name ++ " not available at the needed qty (" ++
    ratStr availableQuantity ++ "/" ++ ratStr needed ++ ")"

/-- The loop over lot-tracked rows: walk the rows in order, flag a row when
the available quantity of its lot minus the consumption accumulated so far is
below the row quantity, and accumulate the row quantity in either case.  The
flagged lots and their messages are collected in lockstep as pairs. -/
def lotGo (avail : Lot → ℚ × ℚ)
    (acc : List (Lot × ℚ) × List (Lot × String)) :
    List (Lot × ℚ) → List (Lot × ℚ) × List (Lot × String)
  | [] => acc
  | (l, q) :: rest =>
    let cons0 := setdefaultQ acc.1 l
    let availableQuantity := qAdd (avail l).1 (avail l).2
    let consumed := (getQ cons0 l).getD 0
    let acc1 :=
      if qSub availableQuantity consumed < q then
        (addConsumption cons0 l q, acc.2 ++ [(l, lotMsg l availableQuantity q)])
      else
        (addConsumption cons0 l q, acc.2)
    lotGo avail acc1 rest

/-- The insufficient-lot warnings, one `(lot, message)` pair per flagged row,
in row order. -/
def lotWarnings (avail : Lot → ℚ × ℚ) (lines : List Line) : List (Lot × String) :=
  (lotGo avail ([], []) (assignedLotRows lines)).2

/-- The lines whose finished unit is chosen but whose component cell is
empty. -/
def notFilledLines (lines : List Line) : List Line :=
  lines.filter (fun l => l.finishedLot.isSome && l.componentLot.isNone)

/-- First-occurrence deduplication, as performed by reading a relational field
over a recordset (`mapped("finished_lot_id")`). -/
def dedupFirst : List Lot → List Lot
  | [] => []
  | x :: xs => x :: (dedupFirst xs).filter (fun y => decide (y ≠ x))

/-- Embedding of Python `", ".join`. -/
def joinComma : List String → String
  | [] => ""
  | [m] => m
  | m :: m1 :: ms => m ++ ", " ++ joinComma (m1 :: ms)

/-- The message `"Some cells are not filled for some finished serial number
(%s)"`. -/
def notFilledMsg (nfLots : List Lot) : String :=
  "Some cells are not filled for some finished serial number (" ++
    joinComma (nfLots.map (fun l => l.name)) ++ ")"

/-- Embedding of `_compute_lot_selection_warning`: the pair of the
`warning_lots` list and the `warning_msgs` list, accumulated in source order:
duplicate serials, then insufficient lots, then unfilled cells.  Note that
`warning_lots` is built with recordset concatenation, which keeps
duplicates. -/
def compute_lot_selection_warning (avail : Lot → ℚ × ℚ) (lines : List Line) :
    List Lot × List String :=
  let sw := serialWarnings lines
  let lw := lotWarnings avail lines
  let nf := notFilledLines lines
  let nfLots := dedupFirst (nf.filterMap (fun l => l.finishedLot))
  if nf.isEmpty then
    (sw.map Prod.fst ++ lw.map Prod.fst, sw.map Prod.snd ++ lw.map Prod.snd)
  else
    (sw.map Prod.fst ++ lw.map Prod.fst ++ nfLots,
     sw.map Prod.snd ++ lw.map Prod.snd ++ [notFilledMsg nfLots])

/-- The `lot_selection_warning_ids` recordset (with the multiplicities of the
underlying concatenation). -/
def warningLots (avail : Lot → ℚ × ℚ) (lines : List Line) : List Lot :=
  (compute_lot_selection_warning avail lines).1

/-- The `warning_msgs` list. -/
def warningMsgs (avail : Lot → ℚ × ℚ) (lines : List Line) : List String :=
  (compute_lot_selection_warning avail lines).2

/-- The `lot_selection_warning_count` field: `len(warning_lots)`. -/
def lot_selection_warning_count (avail : Lot → ℚ × ℚ) (lines : List Line) : Nat :=
  (warningLots avail lines).length

/-- The `lot_selection_warning_msg` field: `", ".join(warning_msgs)`. -/
def lot_selection_warning_msg (avail : Lot → ℚ × ℚ) (lines : List Line) : String :=
  joinComma (warningMsgs avail lines)

/-! ## Commit (`button_validate`) -/

/-- Modelled from the spec: `_split_productions` is host-framework code, out
of scope for the sources here; the spec says commit splits the order into "N
suborders (one per finished unit)" with the requested amounts, so it is
modelled as producing one suborder per requested amount. -/
def split_productions (production : Production) (amounts : List ℚ) : List Production :=
  amounts.map (fun a => { production with productQty := a })

/-- The amount list `[1 for i in self.finished_lot_ids]`. -/
def onesFor (lots : List Lot) : List ℚ :=
  lots.map (fun _ => (1 : ℚ))

/-- Embedding of `button_validate` up to the point the claims are about: when
the warning count is nonzero, a `UserError` is raised (an `Except.error`
result carrying the warning message) before anything else happens; otherwise
the order is split into one suborder per finished lot when its quantity
exceeds one, or operated on directly.  The subsequent per-suborder framework
calls (confirmation, reservation, completion) are opaque host services and are
not modelled; the returned list is the suborder list the wizard then works
through. -/
def button_validate (avail : Lot → ℚ × ℚ) (w : Wizard) :
    Except String (List Production) :=
  if 0 < lot_selection_warning_count avail w.lines then
    Except.error
      ("Some issues has been detected in your selection: " ++
        lot_selection_warning_msg avail w.lines)
  else
    Except.ok
      (if 1 < w.production.productQty then
        split_productions w.production (onesFor w.finishedLots)
      else [w.production])

/-! ## Spec-side characterizations -/

/-- Quantity consumed from a lot by a list of rows: the sum of the quantities
of the rows assigned to that lot. -/
def consumedIn (l : Lot) : List (Lot × ℚ) → ℚ
  | [] => 0
  | (k, q) :: r => (if k = l then q else 0) + consumedIn l r

/-- Specification-side flagging of lot rows, following the claim: walking the
rows in order, a row is flagged exactly when the available quantity of its lot
minus the quantity already accumulated for that lot over the earlier rows is
less than the row quantity. -/
def flaggedGo (avail : Lot → ℚ × ℚ) (pre : List (Lot × ℚ)) :
    List (Lot × ℚ) → List Lot
  | [] => []
  | (l, q) :: rest =>
    (if (avail l).1 + (avail l).2 - consumedIn l pre < q then [l] else []) ++
      flaggedGo avail (pre ++ [(l, q)]) rest

/-- Specification-side flagged lots of a row list, one entry per flagged row,
in row order. -/
def flaggedBySpec (avail : Lot → ℚ × ℚ) (rows : List (Lot × ℚ)) : List Lot :=
  flaggedGo avail [] rows

/-- Placeholder labels of `n` consecutive finished-unit groups starting after
`start`, each group carrying one label copy per generated row. -/
def seqLabels (k : Nat) : Nat → Nat → List String
  | _, 0 => []
  | start, n + 1 => List.replicate k (newLotLabel (start + 1)) ++ seqLabels k (start + 1) n

end SerialMatrix

namespace MrpTag

/-- Modelled from the spec and the Python standard library: `random.randint(a, b)`
returns an integer `N` with `a ≤ N ≤ b`; it is modelled as an arbitrary draw
`r` mapped into the inclusive range. -/
def randint (a b r : Nat) : Nat :=
  a + r % (b - a + 1)

/-- Embedding of `MrpTag._get_default_color`: `randint(1, 11)`. -/
def get_default_color (r : Nat) : Nat :=
  randint 1 11 r

/-- An `mrp.tag` record. -/
structure Tag where
  name : String
  color : Nat
deriving DecidableEq

/-- Creation of a tag: the color field takes the supplied value, and the
default otherwise. -/
def createTag (name : String) (color : Option Nat) (r : Nat) : Tag :=
  { name := name, color := color.getD (get_default_color r) }

end MrpTag

deriving instance DecidableEq for Except

namespace SerialMatrix

/-! ## Concrete fixtures used by witnesses and counterexamples -/

/-- A serial number fixture. -/
def lotS1 : Lot := { id := 101, name := "S1" }

/-- A lot fixture. -/
def lotL1 : Lot := { id := 201, name := "L1" }

/-- A finished-product serial fixture. -/
def flA : Lot := { id := 301, name := "F1" }

/-- A second finished-product serial fixture. -/
def flB : Lot := { id := 302, name := "F2" }

/-- A serial-tracked component fixture. -/
def prodSer : Product := { id := 11, tracking := Tracking.serial, displayName := "PS" }

/-- A lot-tracked component fixture. -/
def prodLot : Product := { id := 12, tracking := Tracking.lot, displayName := "PL" }

/-- A matrix line fixture builder. -/
def mkLine (c : Product) (q : ℚ) (fl cl : Option Lot) : Line :=
  { component := c, componentColumnName := "x", lotQty := q,
    finishedLot := fl, finishedLotName := "f", componentLot := cl }

/-- An availability fixture: five units of `lotL1`, nothing else. -/
def availC : Lot → ℚ × ℚ := fun l => if l.id = 201 then (5, 0) else (0, 0)

/-- A serial-tracked raw move fixture. -/
def mvSer : Move := { product := prodSer, productQty := 2, bomLine := Option.none }

/-- A lot-tracked raw move fixture. -/
def mvLot : Move := { product := prodLot, productQty := 4, bomLine := Option.none }

/-- A production order fixture of quantity two with one serial component. -/
def prodC : Production := { id := 1, productQty := 2, moveRaws := [mvSer] }

/-- A production order fixture with a serial and a lot component. -/
def prodMix : Production := { id := 2, productQty := 2, moveRaws := [mvSer, mvLot] }

/-- A bill-of-materials line fixture with ratio five halves. -/
def bomHalf : BomLine := { productQty := 5, bomProductQty := 2 }

/-- A serial move fixture whose per-unit quantity is five halves. -/
def mvHalf : Move := { product := prodSer, productQty := 5, bomLine := some bomHalf }

/-- A wizard fixture with a duplicated serial assignment. -/
def wizC : Wizard where
  production := prodC
  finishedLots := [flA, flB]
  includeLots := true
  lines := [mkLine prodSer 1 (some flA) (some lotS1), mkLine prodSer 1 (some flA) (some lotS1)]

/-- A wizard fixture with no warnings. -/
def wizOk : Wizard where
  production := prodC
  finishedLots := [flA, flB]
  includeLots := true
  lines := []

/-! ## Bridge lemmas: the executable wrappers agree with the field operations -/

theorem num_eq_self_mul_den (a : ℚ) : (a.num : ℚ) = a * a.den := by
  have ha : ((a.den : ℚ)) ≠ 0 := Nat.cast_ne_zero.mpr a.den_nz
  exact (div_eq_iff ha).mp (Rat.num_div_den a)

theorem qAdd_eq_add (a b : ℚ) : qAdd a b = a + b := by
  have ha : ((a.den : ℚ)) ≠ 0 := Nat.cast_ne_zero.mpr a.den_nz
  have hb : ((b.den : ℚ)) ≠ 0 := Nat.cast_ne_zero.mpr b.den_nz
  unfold qAdd
  rw [Rat.divInt_eq_div]
  push_cast
  rw [div_eq_iff (mul_ne_zero ha hb), num_eq_self_mul_den a, num_eq_self_mul_den b]
  ring

theorem qSub_eq_sub (a b : ℚ) : qSub a b = a - b := by
  have ha : ((a.den : ℚ)) ≠ 0 := Nat.cast_ne_zero.mpr a.den_nz
  have hb : ((b.den : ℚ)) ≠ 0 := Nat.cast_ne_zero.mpr b.den_nz
  unfold qSub
  rw [Rat.divInt_eq_div]
  push_cast
  rw [div_eq_iff (mul_ne_zero ha hb), num_eq_self_mul_den a, num_eq_self_mul_den b]
  ring

theorem qDiv_eq_div (a b : ℚ) : qDiv a b = a / b := by
  have ha : ((a.den : ℚ)) ≠ 0 := Nat.cast_ne_zero.mpr a.den_nz
  have hb : ((b.den : ℚ)) ≠ 0 := Nat.cast_ne_zero.mpr b.den_nz
  unfold qDiv
  by_cases hbz : b = 0
  · subst hbz
    simp [Rat.divInt_eq_div]
  · have hbn : ((b.num : ℚ)) ≠ 0 := by
      exact_mod_cast Rat.num_ne_zero.mpr hbz
    rw [Rat.divInt_eq_div]
    push_cast
    rw [div_eq_div_iff (mul_ne_zero ha hbn) hbz, num_eq_self_mul_den a,
      num_eq_self_mul_den b]
    ring

/-! ## C4: serial expansion -/

/-- C4: for a serial-tracked consumption requirement with per-finished-unit
quantity `q` (and a nonzero move quantity, zero-quantity requirements being
skipped by the generator), the rows generated from it for any one finished
unit have quantity list `replicate ⌊q⌋ 1`: exactly `⌊q⌋` rows, each of
quantity exactly 1. -/
theorem C4_serial_rows_unit_qty (il : Bool) (production : Production) (move : Move)
    (fl : Option Lot) (number : Nat)
    (hser : move.product.tracking = Tracking.serial) (hnz : move.productQty ≠ 0) :
    (groupLines (trackedOfMove il production move) fl number).map (fun r => r.lotQty) =
      List.replicate (Int.toNat ⌊qtyPerFinishedUnit production move⌋) 1 := by
  unfold groupLines trackedOfMove
  rw [if_neg hnz, hser]
  simp only [List.map_map]
  refine List.eq_replicate_iff.mpr ⟨by simp, ?_⟩
  intro x hx
  rw [List.mem_map] at hx
  obtain ⟨i, -, rfl⟩ := hx
  rfl

/-- Witness for C4 at a concrete serial move with per-unit quantity `5/2`. -/
theorem C4_witness :
    (groupLines (trackedOfMove true prodC mvHalf) (some flA) 0).map (fun r => r.lotQty) =
      List.replicate 2 1 := by
  have h2 : Int.toNat ⌊qtyPerFinishedUnit prodC mvHalf⌋ = 2 := by decide
  have h := C4_serial_rows_unit_qty true prodC mvHalf (some flA) 0 (by decide) (by decide)
  rw [h2] at h
  exact h

/-! ## C8: placeholder labels -/

/-- C8 counterexample: for an order of quantity two with one serial component
and no pre-chosen finished lots, the generated labels are not
`"New Lot 1" / "New Lot 2"` (the code writes `"(New Lot %s)"`, with
parentheses). -/
theorem C8_counterexample :
    ¬ ((get_matrix_lines true prodC []).map (fun l => l.finishedLotName) =
      ["New Lot 1", "New Lot 2"]) := by
  decide

theorem matrixGo_empty_labels (tcs : List (Product × Nat × ℚ)) :
    ∀ (n start : Nat),
      (matrixGo tcs [] start n).map (fun l => l.finishedLotName) =
        seqLabels tcs.length start n
  | 0, _ => rfl
  | n + 1, start => by
    show (groupLines tcs Option.none (start + 1) ++ matrixGo tcs [] (start + 1) n).map
        (fun l => l.finishedLotName) =
      List.replicate tcs.length (newLotLabel (start + 1)) ++ seqLabels tcs.length (start + 1) n
    rw [List.map_append, matrixGo_empty_labels tcs n (start + 1)]
    unfold groupLines
    rw [List.map_map]
    congr 1
    refine List.eq_replicate_iff.mpr ⟨by simp, ?_⟩
    intro x hx
    rw [List.mem_map] at hx
    obtain ⟨ct, -, rfl⟩ := hx
    rfl

/-- C8 (amended): with no pre-chosen finished lots, the finished-unit labels
of the generated rows form `N = int(order quantity)` consecutive groups, the
`i`-th made of one copy of `"(New Lot i)"` per tracked-component row, for `i`
running from 1 to `N`. -/
theorem C8_amended_labels (il : Bool) (production : Production) :
    (get_matrix_lines il production []).map (fun l => l.finishedLotName) =
      seqLabels (trackedComponents il production).length 0
        (Int.toNat ⌊production.productQty⌋) :=
  matrixGo_empty_labels _ _ _

/-! ## C7: disabling lot inclusion -/

theorem trackedOfMove_false (production : Production) (move : Move) :
    trackedOfMove false production move =
      (trackedOfMove true production move).filter
        (fun ct => decide (ct.1.tracking = Tracking.serial)) := by
  unfold trackedOfMove
  by_cases hz : move.productQty = 0
  · simp [hz]
  · rw [if_neg hz, if_neg hz]
    cases htr : move.product.tracking with
    | serial =>
      refine (List.filter_eq_self.mpr ?_).symm
      intro a ha
      rw [List.mem_map] at ha
      obtain ⟨i, -, rfl⟩ := ha
      simpa using htr
    | lot => simp [htr]
    | none => rfl

theorem trackedComponents_false (production : Production) :
    trackedComponents false production =
      (trackedComponents true production).filter
        (fun ct => decide (ct.1.tracking = Tracking.serial)) := by
  unfold trackedComponents
  induction production.moveRaws with
  | nil => rfl
  | cons m ms ih =>
    simp only [List.foldr_cons]
    rw [trackedOfMove_false, ih, ← List.filter_append]

theorem groupLines_filter (tcs : List (Product × Nat × ℚ)) (fl : Option Lot) (number : Nat) :
    groupLines (tcs.filter (fun ct => decide (ct.1.tracking = Tracking.serial))) fl number =
      (groupLines tcs fl number).filter
        (fun r => decide (r.component.tracking = Tracking.serial)) := by
  unfold groupLines
  rw [List.filter_map]
  rfl

theorem matrixGo_filter (tcs : List (Product × Nat × ℚ)) :
    ∀ (n : Nat) (lots : List Lot) (start : Nat),
      matrixGo (tcs.filter (fun ct => decide (ct.1.tracking = Tracking.serial))) lots start n =
        (matrixGo tcs lots start n).filter
          (fun r => decide (r.component.tracking = Tracking.serial))
  | 0, lots, _ => by cases lots <;> rfl
  | n + 1, l :: rest, start => by
    show groupLines _ (some l) start ++ _ = List.filter _ (groupLines tcs (some l) start ++ _)
    rw [List.filter_append, groupLines_filter, matrixGo_filter tcs n rest start]
  | n + 1, [], start => by
    show groupLines _ Option.none (start + 1) ++ _ =
      List.filter _ (groupLines tcs Option.none (start + 1) ++ _)
    rw [List.filter_append, groupLines_filter, matrixGo_filter tcs n [] (start + 1)]

/-- C7: with lot inclusion disabled, regeneration yields exactly the
serial-tracked rows of the enabled regeneration (so the serial rows are
untouched), and every generated row is serial-tracked (so no lot-tracked row
remains). -/
theorem C7_disable_lot_inclusion (production : Production) (finishedLots : List Lot) :
    get_matrix_lines false production finishedLots =
      (get_matrix_lines true production finishedLots).filter
        (fun r => decide (r.component.tracking = Tracking.serial)) ∧
    ∀ r ∈ get_matrix_lines false production finishedLots,
      r.component.tracking = Tracking.serial := by
  have hmain : get_matrix_lines false production finishedLots =
      (get_matrix_lines true production finishedLots).filter
        (fun r => decide (r.component.tracking = Tracking.serial)) := by
    unfold get_matrix_lines
    rw [trackedComponents_false, matrixGo_filter]
  refine ⟨hmain, ?_⟩
  intro r hr
  rw [hmain, List.mem_filter] at hr
  exact of_decide_eq_true hr.2

/-! ## C5: unfilled cells are always flagged -/

theorem mem_dedupFirst (x : Lot) : ∀ (l : List Lot), x ∈ dedupFirst l ↔ x ∈ l
  | [] => Iff.rfl
  | y :: ys => by
    show x ∈ y :: (dedupFirst ys).filter (fun z => decide (z ≠ y)) ↔ x ∈ y :: ys
    by_cases hxy : x = y
    · subst hxy
      simp
    · simp only [List.mem_cons, List.mem_filter, mem_dedupFirst x ys, hxy, false_or]
      constructor
      · exact fun h => h.1
      · exact fun h => ⟨h, by simpa using hxy⟩

/-- C5: a row whose finished unit is chosen and whose component cell is empty
always puts its finished lot among the warning lots, whatever the rest of the
wizard state. -/
theorem C5_unfilled_always_flagged (avail : Lot → ℚ × ℚ) (lines : List Line)
    (ln : Line) (fl : Lot) (hmem : ln ∈ lines) (hfl : ln.finishedLot = some fl)
    (hcl : ln.componentLot = Option.none) :
    fl ∈ warningLots avail lines := by
  have hnfmem : ln ∈ notFilledLines lines := by
    refine List.mem_filter.mpr ⟨hmem, ?_⟩
    rw [hfl, hcl]
    rfl
  have hne : (notFilledLines lines).isEmpty = false := by
    rw [List.isEmpty_eq_false_iff_exists_mem]
    exact ⟨ln, hnfmem⟩
  have hflmem : fl ∈ (notFilledLines lines).filterMap (fun l => l.finishedLot) :=
    List.mem_filterMap.mpr ⟨ln, hnfmem, hfl⟩
  unfold warningLots compute_lot_selection_warning
  simp only [hne, Bool.false_eq_true, if_false]
  refine List.mem_append.mpr (Or.inr ?_)
  exact (mem_dedupFirst fl _).mpr hflmem

/-- Witness for C5 at a single unfilled serial row. -/
theorem C5_witness :
    flA ∈ warningLots availC [mkLine prodSer 1 (some flA) Option.none] :=
  C5_unfilled_always_flagged availC [mkLine prodSer 1 (some flA) Option.none]
    (mkLine prodSer 1 (some flA) Option.none) flA (by simp) rfl rfl

/-! ## C3: duplicate serials -/

theorem entriesFor_bumpCount_other {l k : Lot} (hne : k ≠ l) :
    ∀ m : List (Lot × Nat), entriesFor l (bumpCount m k) = entriesFor l m := by
  intro m
  induction m with
  | nil => simp [bumpCount, entriesFor, hne]
  | cons p r ih =>
    obtain ⟨k0, n⟩ := p
    by_cases h0 : k0 = k
    · subst h0
      simp [bumpCount, entriesFor, hne]
    · by_cases hl : k0 = l
      · subst hl
        simp [bumpCount, entriesFor, h0, ih]
      · simp [bumpCount, entriesFor, h0, hl, ih]

theorem entriesFor_bumpCount_self (l : Lot) :
    ∀ (m : List (Lot × Nat)) (c : Nat),
      entriesFor l m = (if c = 0 then [] else [(l, c)]) →
      entriesFor l (bumpCount m l) = [(l, c + 1)] := by
  intro m
  induction m with
  | nil =>
    intro c hc
    by_cases h0 : c = 0
    · subst h0
      simp [bumpCount, entriesFor]
    · rw [if_neg h0] at hc
      exact absurd hc.symm (by simp [entriesFor])
  | cons p r ih =>
    intro c hc
    obtain ⟨k0, n⟩ := p
    by_cases h0 : k0 = l
    · rw [show entriesFor l ((k0, n) :: r) = (k0, n) :: entriesFor l r from by
        simp [entriesFor, h0]] at hc
      by_cases hz : c = 0
      · rw [if_pos hz] at hc
        exact absurd hc (by simp)
      · rw [if_neg hz] at hc
        injection hc with h1 h2
        injection h1 with h1a h1b
        simp [bumpCount, entriesFor, h0, h1b, h2]
    · rw [show entriesFor l ((k0, n) :: r) = entriesFor l r from by
        simp [entriesFor, h0]] at hc
      rw [show bumpCount ((k0, n) :: r) l = (k0, n) :: bumpCount r l from by
        simp [bumpCount, h0]]
      rw [show entriesFor l ((k0, n) :: bumpCount r l) = entriesFor l (bumpCount r l) from by
        simp [entriesFor, h0]]
      exact ih c hc

theorem entriesFor_countFold (l : Lot) :
    ∀ (ks : List Lot) (m : List (Lot × Nat)) (c : Nat),
      entriesFor l m = (if c = 0 then [] else [(l, c)]) →
      entriesFor l (countFold m ks) =
        (if c + occCount l ks = 0 then [] else [(l, c + occCount l ks)]) := by
  intro ks
  induction ks with
  | nil =>
    intro m c hc
    simpa [countFold, occCount] using hc
  | cons k ks ih =>
    intro m c hc
    show entriesFor l (countFold (bumpCount m k) ks) = _
    by_cases hk : k = l
    · rw [hk]
      have hb := entriesFor_bumpCount_self l m c hc
      have hstep := ih (bumpCount m l) (c + 1) (by simp [hb])
      have harith : c + occCount l (l :: ks) = (c + 1) + occCount l ks := by
        simp [occCount]
        omega
      rw [harith]
      exact hstep
    · have hb := entriesFor_bumpCount_other hk m
      have hstep := ih (bumpCount m k) c (by rw [hb]; exact hc)
      have harith : c + occCount l (k :: ks) = c + occCount l ks := by
        simp [occCount, hk]
      rw [harith]
      exact hstep

theorem serialCounter_entries (lines : List Line) (l : Lot) :
    entriesFor l (serialCounter lines) =
      (if occCount l (serialLots lines) = 0 then []
       else [(l, occCount l (serialLots lines))]) := by
  have h := entriesFor_countFold l (serialLots lines) [] 0 (by simp [entriesFor])
  simpa [serialCounter] using h

theorem entriesFor_filter (l : Lot) (p : Lot × Nat → Bool) :
    ∀ m : List (Lot × Nat), entriesFor l (m.filter p) = (entriesFor l m).filter p := by
  intro m
  induction m with
  | nil => rfl
  | cons q r ih =>
    obtain ⟨k0, n⟩ := q
    by_cases h0 : k0 = l
    · subst h0
      by_cases hp : p (k0, n) <;> simp_all [entriesFor, List.filter_cons]
    · by_cases hp : p (k0, n) <;> simp_all [entriesFor, List.filter_cons]

theorem entriesFor_map_warning (l : Lot) :
    ∀ m : List (Lot × Nat),
      entriesFor l (m.map (fun p => (p.1, serialMsg p.1))) =
        (entriesFor l m).map (fun p => (p.1, serialMsg p.1)) := by
  intro m
  induction m with
  | nil => rfl
  | cons q r ih =>
    obtain ⟨k0, n⟩ := q
    by_cases h0 : k0 = l <;> simp_all [entriesFor]

/-- C3: when the same serial is assigned to at least two serial-tracked rows,
the duplicate warnings for that serial consist of exactly one `(lot, message)`
pair, and its message spells out the name of the serial. -/
theorem C3_duplicate_serial_one_warning (lines : List Line) (l : Lot)
    (hdup : 2 ≤ occCount l (serialLots lines)) :
    entriesFor l (serialWarnings lines) = [(l, serialMsg l)] ∧
    serialMsg l = "Serial number " ++ l.name ++ " selected several times" := by
  refine ⟨?_, rfl⟩
  unfold serialWarnings
  rw [entriesFor_map_warning, entriesFor_filter, serialCounter_entries]
  rw [if_neg (by omega : ¬ occCount l (serialLots lines) = 0)]
  have h1 : decide (1 < occCount l (serialLots lines)) = true := by
    simp only [decide_eq_true_eq]
    omega
  simp [List.filter_cons, h1]

/-- Witness for C3 at two rows carrying the same serial. -/
theorem C3_witness :
    entriesFor lotS1 (serialWarnings [mkLine prodSer 1 (some flA) (some lotS1),
        mkLine prodSer 1 (some flA) (some lotS1)]) = [(lotS1, serialMsg lotS1)] :=
  (C3_duplicate_serial_one_warning
    [mkLine prodSer 1 (some flA) (some lotS1), mkLine prodSer 1 (some flA) (some lotS1)]
    lotS1 (by decide)).1

/-! ## C2: cumulative, order-sensitive lot flagging -/

theorem getQ_append_zero (k k' : Lot) :
    ∀ m : List (Lot × ℚ), (getQ (m ++ [(k, 0)]) k').getD 0 = (getQ m k').getD 0 := by
  intro m
  induction m with
  | nil => by_cases hk : k = k' <;> simp [getQ, hk]
  | cons p r ih =>
    obtain ⟨k0, v⟩ := p
    by_cases h0 : k0 = k' <;> simp [getQ, h0, ih]

theorem getQ_setdefaultQ (m : List (Lot × ℚ)) (k k' : Lot) :
    (getQ (setdefaultQ m k) k').getD 0 = (getQ m k').getD 0 := by
  unfold setdefaultQ
  cases h : getQ m k
  · exact getQ_append_zero k k' m
  · rfl

theorem getQ_addConsumption (k : Lot) (q : ℚ) :
    ∀ (m : List (Lot × ℚ)) (k' : Lot),
      (getQ (addConsumption m k q) k').getD 0 =
        (getQ m k').getD 0 + (if k = k' then q else 0) := by
  intro m
  induction m with
  | nil =>
    intro k'
    by_cases hk : k = k' <;> simp [getQ, addConsumption, hk]
  | cons p r ih =>
    intro k'
    obtain ⟨k0, v⟩ := p
    by_cases h0 : k0 = k
    · by_cases h0' : k0 = k'
      · have hkk : k = k' := h0 ▸ h0'
        simp [addConsumption, getQ, h0, h0', hkk, qAdd_eq_add]
      · have hkk : ¬ k = k' := fun h => h0' (h0.trans h)
        simp [addConsumption, getQ, h0, h0', hkk]
    · by_cases h0' : k0 = k'
      · have hkk : ¬ k = k' := fun h => h0 (h0'.trans h.symm)
        have hkk' : ¬ k' = k := fun h => hkk h.symm
        simp [addConsumption, getQ, h0, h0', hkk, hkk']
      · simp [addConsumption, getQ, h0, h0', ih]

theorem consumedIn_append (l k : Lot) (q : ℚ) :
    ∀ pre : List (Lot × ℚ),
      consumedIn l (pre ++ [(k, q)]) = consumedIn l pre + (if k = l then q else 0) := by
  intro pre
  induction pre with
  | nil => simp [consumedIn]
  | cons p r ih =>
    obtain ⟨k0, v⟩ := p
    simp [consumedIn, ih, add_assoc]

theorem lotGo_spec (avail : Lot → ℚ × ℚ) :
    ∀ (rows : List (Lot × ℚ)) (m : List (Lot × ℚ)) (pre : List (Lot × ℚ))
      (w : List (Lot × String)),
      (∀ k, (getQ m k).getD 0 = consumedIn k pre) →
      ((lotGo avail (m, w) rows).2).map Prod.fst =
        w.map Prod.fst ++ flaggedGo avail pre rows := by
  intro rows
  induction rows with
  | nil =>
    intro m pre w hinv
    simp [lotGo, flaggedGo]
  | cons row rest ih =>
    intro m pre w hinv
    obtain ⟨l, q⟩ := row
    have hconsumed : (getQ (setdefaultQ m l) l).getD 0 = consumedIn l pre := by
      rw [getQ_setdefaultQ]
      exact hinv l
    have hcond :
        (qSub (qAdd (avail l).1 (avail l).2) ((getQ (setdefaultQ m l) l).getD 0) < q)
          ↔ ((avail l).1 + (avail l).2 - consumedIn l pre < q) := by
      rw [qSub_eq_sub, qAdd_eq_add, hconsumed]
    have hinv' : ∀ k,
        (getQ (addConsumption (setdefaultQ m l) l q) k).getD 0 =
          consumedIn k (pre ++ [(l, q)]) := by
      intro k
      rw [getQ_addConsumption, getQ_setdefaultQ, consumedIn_append, hinv k]
    by_cases hc : (avail l).1 + (avail l).2 - consumedIn l pre < q
    · have hc' := hcond.mpr hc
      have hstep :
          lotGo avail (m, w) ((l, q) :: rest) =
            lotGo avail (addConsumption (setdefaultQ m l) l q,
              w ++ [(l, lotMsg l (qAdd (avail l).1 (avail l).2) q)]) rest := by
        simp only [lotGo]
        rw [if_pos hc']
      rw [hstep, ih _ _ _ hinv']
      have hflag : flaggedGo avail pre ((l, q) :: rest) =
          [l] ++ flaggedGo avail (pre ++ [(l, q)]) rest := by
        simp only [flaggedGo]
        rw [if_pos hc]
      rw [hflag]
      simp
    · have hc' := (not_iff_not.mpr hcond).mpr hc
      have hstep :
          lotGo avail (m, w) ((l, q) :: rest) =
            lotGo avail (addConsumption (setdefaultQ m l) l q, w) rest := by
        simp only [lotGo]
        rw [if_neg hc']
      rw [hstep, ih _ _ _ hinv']
      have hflag : flaggedGo avail pre ((l, q) :: rest) =
          flaggedGo avail (pre ++ [(l, q)]) rest := by
        simp only [flaggedGo]
        rw [if_neg hc]
        rfl
      rw [hflag]

/-- C2: the lots flagged by the lot loop are, row for row, exactly those
given by the cumulative order-sensitive characterization: a row is flagged
exactly when its lot's free-plus-reserved availability minus the quantity
already accumulated for that lot over the earlier rows is below the row
quantity.  In particular, with five units of a lot available and two rows
each drawing three, only the second row is flagged. -/
theorem C2_cumulative_lot_flagging (avail : Lot → ℚ × ℚ) (lines : List Line) :
    (lotWarnings avail lines).map Prod.fst = flaggedBySpec avail (assignedLotRows lines) ∧
    lotWarnings availC [mkLine prodLot 3 (some flA) (some lotL1)] = [] ∧
    (lotWarnings availC [mkLine prodLot 3 (some flA) (some lotL1),
        mkLine prodLot 3 (some flA) (some lotL1)]).map Prod.fst = [lotL1] := by
  refine ⟨?_, by decide, by decide⟩
  unfold lotWarnings flaggedBySpec
  simpa using lotGo_spec avail (assignedLotRows lines) [] [] [] (fun k => rfl)

/-! ## C9: count and message consistency -/

theorem append_ne_empty_left (s t : String) (h : s ≠ "") : s ++ t ≠ "" := by
  intro he
  apply h
  have hlen := congrArg String.length he
  rw [String.length_append] at hlen
  have hs : s.length = 0 := by
    have hz : (("" : String)).length = 0 := rfl
    omega
  have hdata : s.data = [] := List.length_eq_zero.mp hs
  have hrepr : s = ⟨s.data⟩ := rfl
  rw [hrepr, hdata]

theorem joinComma_ne_empty :
    ∀ ms : List String, ms ≠ [] → (∀ m ∈ ms, m ≠ "") → joinComma ms ≠ ""
  | [], h, _ => absurd rfl h
  | [m], _, hm => by simpa [joinComma] using hm m (by simp)
  | m :: m1 :: ms, _, hm => by
    show m ++ ", " ++ joinComma (m1 :: ms) ≠ ""
    have hmne : m ≠ "" := hm m (by simp)
    rw [String.append_assoc]
    exact append_ne_empty_left m _ hmne

theorem serialMsg_ne_empty (l : Lot) : serialMsg l ≠ "" := by
  unfold serialMsg
  rw [String.append_assoc]
  exact append_ne_empty_left _ _ (by decide)

theorem lotMsg_ne_empty (l : Lot) (a q : ℚ) : lotMsg l a q ≠ "" := by
  unfold lotMsg
  repeat rw [String.append_assoc]
  exact append_ne_empty_left _ _ (by decide)

theorem notFilledMsg_ne_empty (nfLots : List Lot) : notFilledMsg nfLots ≠ "" := by
  unfold notFilledMsg
  rw [String.append_assoc]
  exact append_ne_empty_left _ _ (by decide)

theorem warningMsgs_ne_empty (avail : Lot → ℚ × ℚ) (lines : List Line) :
    ∀ m ∈ warningMsgs avail lines, m ≠ "" := by
  have hser : ∀ m ∈ (serialWarnings lines).map Prod.snd, m ≠ "" := by
    intro m hm
    rw [List.mem_map] at hm
    obtain ⟨p, hp, rfl⟩ := hm
    unfold serialWarnings at hp
    rw [List.mem_map] at hp
    obtain ⟨e, -, rfl⟩ := hp
    exact serialMsg_ne_empty e.1
  have hlot : ∀ m ∈ (lotWarnings avail lines).map Prod.snd, m ≠ "" := by
    have hgo : ∀ (rows : List (Lot × ℚ)) (mm : List (Lot × ℚ)) (w : List (Lot × String)),
        (∀ m ∈ w.map Prod.snd, m ≠ "") →
        ∀ m ∈ ((lotGo avail (mm, w) rows).2).map Prod.snd, m ≠ "" := by
      intro rows
      induction rows with
      | nil =>
        intro mm w hw
        simpa [lotGo] using hw
      | cons row rest ih =>
        intro mm w hw
        obtain ⟨l, q⟩ := row
        by_cases hc : qSub (qAdd (avail l).1 (avail l).2)
            ((getQ (setdefaultQ mm l) l).getD 0) < q
        · have hstep : lotGo avail (mm, w) ((l, q) :: rest) =
              lotGo avail (addConsumption (setdefaultQ mm l) l q,
                w ++ [(l, lotMsg l (qAdd (avail l).1 (avail l).2) q)]) rest := by
            simp only [lotGo]
            rw [if_pos hc]
          rw [hstep]
          refine ih _ _ ?_
          intro m hm
          rw [List.map_append, List.mem_append] at hm
          rcases hm with hm | hm
          · exact hw m hm
          · simp only [List.map_cons, List.map_nil, List.mem_singleton] at hm
            rw [hm]
            exact lotMsg_ne_empty l _ q
        · have hstep : lotGo avail (mm, w) ((l, q) :: rest) =
              lotGo avail (addConsumption (setdefaultQ mm l) l q, w) rest := by
            simp only [lotGo]
            rw [if_neg hc]
          rw [hstep]
          exact ih _ _ hw
    intro m hm
    exact hgo (assignedLotRows lines) [] [] (by simp) m hm
  intro m hm
  unfold warningMsgs compute_lot_selection_warning at hm
  by_cases hnf : (notFilledLines lines).isEmpty
  · simp only [hnf, if_true] at hm
    rw [List.mem_append] at hm
    rcases hm with hm | hm
    · exact hser m hm
    · exact hlot m hm
  · simp only [hnf, Bool.false_eq_true, if_false] at hm
    rw [List.mem_append, List.mem_append] at hm
    rcases hm with (hm | hm) | hm
    · exact hser m hm
    · exact hlot m hm
    · rw [List.mem_singleton] at hm
      rw [hm]
      exact notFilledMsg_ne_empty _

theorem warningLots_nil_iff (avail : Lot → ℚ × ℚ) (lines : List Line) :
    warningLots avail lines = [] ↔ warningMsgs avail lines = [] := by
  unfold warningLots warningMsgs compute_lot_selection_warning
  by_cases hnf : (notFilledLines lines).isEmpty
  · simp [hnf, List.append_eq_nil]
  · obtain ⟨ln, hln⟩ :=
      List.isEmpty_eq_false_iff_exists_mem.mp (Bool.not_eq_true _ ▸ hnf)
    have hcond := (List.mem_filter.mp hln).2
    rw [Bool.and_eq_true] at hcond
    obtain ⟨fl, hfl⟩ := Option.isSome_iff_exists.mp hcond.1
    have hflmem : fl ∈ dedupFirst ((notFilledLines lines).filterMap
        (fun l => l.finishedLot)) :=
      (mem_dedupFirst fl _).mpr (List.mem_filterMap.mpr ⟨ln, hln, hfl⟩)
    simp only [hnf, Bool.false_eq_true, if_false]
    constructor
    · intro h
      exfalso
      rw [List.append_eq_nil] at h
      exact (List.ne_nil_of_mem hflmem) h.2
    · intro h
      exfalso
      rw [List.append_eq_nil] at h
      exact List.cons_ne_nil _ _ h.2

/-- C9: the warning count is the length of the collected warning-lot list,
and it is zero exactly when the aggregated warning message is the empty
string. -/
theorem C9_count_zero_iff_msg_empty (avail : Lot → ℚ × ℚ) (lines : List Line) :
    lot_selection_warning_count avail lines = (warningLots avail lines).length ∧
    (lot_selection_warning_count avail lines = 0 ↔
      lot_selection_warning_msg avail lines = "") := by
  refine ⟨rfl, ?_⟩
  unfold lot_selection_warning_count lot_selection_warning_msg
  constructor
  · intro h0
    have hlots : warningLots avail lines = [] := List.length_eq_zero.mp h0
    have hmsgs : warningMsgs avail lines = [] := (warningLots_nil_iff avail lines).mp hlots
    rw [hmsgs]
    rfl
  · intro hmsg
    by_contra h0
    have hmsgs_ne : warningMsgs avail lines ≠ [] := by
      intro he
      apply h0
      rw [(warningLots_nil_iff avail lines).mpr he]
      rfl
    exact joinComma_ne_empty _ hmsgs_ne (warningMsgs_ne_empty avail lines) hmsg

/-- C1: whenever the warning count is nonzero, `button_validate` raises the
`UserError` carrying the warning message; the `Except.error` result is
produced before any suborder exists or any order is touched (the split and the
per-suborder writes live in the untaken `else` branch). -/
theorem C1_commit_rejected_on_warnings (avail : Lot → ℚ × ℚ) (w : Wizard)
    (h : lot_selection_warning_count avail w.lines ≠ 0) :
    button_validate avail w =
      Except.error ("Some issues has been detected in your selection: " ++
        lot_selection_warning_msg avail w.lines) := by
  unfold button_validate
  rw [if_pos (Nat.pos_of_ne_zero h)]

/-- Witness for C1 at a wizard with a duplicated serial assignment. -/
theorem C1_witness :
    lot_selection_warning_count availC wizC.lines ≠ 0 ∧
    button_validate availC wizC =
      Except.error ("Some issues has been detected in your selection: " ++
        lot_selection_warning_msg availC wizC.lines) :=
  ⟨by decide, C1_commit_rejected_on_warnings availC wizC (by decide)⟩

/-- C6: on commit with a zero warning count, an order of quantity above one is
split into one suborder per finished lot, each of quantity one, while any
other order is operated on directly as the single member of the suborder
list. -/
theorem C6_split_per_finished_unit (avail : Lot → ℚ × ℚ) (w : Wizard)
    (h : lot_selection_warning_count avail w.lines = 0) :
    (1 < w.production.productQty →
      button_validate avail w =
        Except.ok (split_productions w.production (onesFor w.finishedLots)) ∧
      (split_productions w.production (onesFor w.finishedLots)).length =
        w.finishedLots.length ∧
      ∀ mo ∈ split_productions w.production (onesFor w.finishedLots),
        mo.productQty = 1) ∧
    (¬ 1 < w.production.productQty →
      button_validate avail w = Except.ok [w.production]) := by
  have hguard : ¬ 0 < lot_selection_warning_count avail w.lines := by
    rw [h]
    exact lt_irrefl 0
  constructor
  · intro hq
    refine ⟨?_, ?_, ?_⟩
    · unfold button_validate
      rw [if_neg hguard, if_pos hq]
    · unfold split_productions onesFor
      simp
    · intro mo hmo
      unfold split_productions onesFor at hmo
      simp at hmo
      obtain ⟨l, -, rfl⟩ := hmo
      rfl
  · intro hq
    unfold button_validate
    rw [if_neg hguard, if_neg hq]

/-- Witness for C6 at a quantity-two order with two chosen finished lots and
no warnings. -/
theorem C6_witness :
    button_validate availC wizOk =
      Except.ok (split_productions wizOk.production (onesFor wizOk.finishedLots)) ∧
    (split_productions wizOk.production (onesFor wizOk.finishedLots)).length =
      wizOk.finishedLots.length := by
  have h := (C6_split_per_finished_unit availC wizOk (by decide)).1 (by decide)
  exact ⟨h.1, h.2.1⟩

end SerialMatrix

namespace MrpTag

/-- C10: a tag created with no supplied color gets a default color between 1
and 11 inclusive, whatever the random draw. -/
theorem C10_default_color_range (name : String) (r : Nat) :
    1 ≤ (createTag name Option.none r).color ∧ (createTag name Option.none r).color ≤ 11 := by
  unfold createTag get_default_color randint
  simp only [Option.getD]
  omega

end MrpTag
